import Mathlib

/-!
Verification of the Mallet corpus codec (`gensim/corpora/malletcorpus.py`).

Python strings are modelled as `List Char` (`PyStr`); the numeric counts in a
bag-of-words document are modelled as `ℚ` (Python's int/float counts), with
Python's `int(value)` truncation-toward-zero modelled by `ratTrunc`.  A file is
the flat character sequence written to it; byte offsets are computed from the
UTF-8 sizes of the characters.  Raising an exception is modelled by `Option`
(`none` = the call raises).
-/

/-- Python strings, modelled as character lists. -/
abbrev PyStr := List Char

/-- Whitespace test used by Python's `str.strip()`. -/
def isWS (c : Char) : Bool := c.isWhitespace

/-- Python's `str.strip()`: drop leading and trailing whitespace. -/
def pystrip (s : PyStr) : PyStr := ((s.dropWhile isWS).reverse.dropWhile isWS).reverse

/-- Python's `str.split(' ')`: split on every single space character.
`splitSpace [] = [[]]`, matching `''.split(' ') == ['']`. -/
def splitSpace : PyStr → List PyStr
  | [] => [[]]
  | c :: cs =>
    if c = ' ' then [] :: splitSpace cs
    else
      match splitSpace cs with
      | [] => [[c]]
      | w :: ws => (c :: w) :: ws

/-- Python's `' '.join(ws)`. -/
def joinSp : List PyStr → PyStr
  | [] => []
  | [w] => w
  | w :: x :: ws => w ++ ' ' :: joinSp (x :: ws)

/-- The token extraction of `MalletCorpus.line2doc` (malletcorpus.py line 58):
`[word for word in utils.to_unicode(line).strip().split(' ') if word]`. -/
def line2words (line : PyStr) : List PyStr :=
  (splitSpace (pystrip line)).filter (fun w => !w.isEmpty)

/-- Python file iteration: the lines of a file, each including its trailing
newline; a last line without a newline is still yielded. -/
def pyLines : PyStr → List PyStr
  | [] => []
  | c :: cs =>
    if c = '\n' then ['\n'] :: pyLines cs
    else
      match pyLines cs with
      | [] => [[c]]
      | l :: ls => (c :: l) :: ls

/-- Python's `f.readline()` from the current position: characters up to and
including the first newline (or the whole remainder). -/
def readline : PyStr → PyStr
  | [] => []
  | c :: cs => if c = '\n' then ['\n'] else c :: readline cs

/-- Byte length of a string in UTF-8 (the sink's `tell()` advances by this). -/
def utf8Len (s : PyStr) : ℕ := (s.map Char.utf8Size).sum

/-- Python's `f.seek(off)` on a UTF-8 file: drop `off` bytes worth of
characters.  Only used at character-aligned offsets. -/
def dropBytes : ℕ → PyStr → PyStr
  | _, [] => []
  | off, c :: cs => if off = 0 then c :: cs else dropBytes (off - c.utf8Size) cs

/-- Python's `int(value)` on a numeric value: truncation toward zero. -/
def ratTrunc (q : ℚ) : ℤ := if 0 ≤ q then ⌊q⌋ else ⌈q⌉

/-- The truncation test of `save_corpus` (malletcorpus.py line 102):
`abs(int(value) - value) > 1e-6`. -/
def truncEvent (v : ℚ) : Bool := decide ((1 : ℚ)/1000000 < |((ratTrunc v : ℤ) : ℚ) - v|)

/-- The literal `'__unknown__'` used as the default label. -/
def uLabel : PyStr := ['_', '_', 'u', 'n', 'k', 'n', 'o', 'w', 'n', '_', '_']

/-- Python's `str(doc_id)` for the enumeration index: decimal digits. -/
def natDecimal (n : ℕ) : PyStr := Nat.toDigits 10 n

/-- The token list written for one document (malletcorpus.py lines 100-104):
for each `(wordid, value)` pair, `str(id2word[wordid])` repeated `int(value)`
times (Python's `list * n` is empty for `n ≤ 0`). -/
def docWords (id2word : ℕ → PyStr) (bow : List (ℕ × ℚ)) : List PyStr :=
  bow.flatMap (fun p => List.replicate (ratTrunc p.2).toNat (id2word p.1))

/-- Number of truncation events contributed by one document's pairs
(malletcorpus.py lines 102-103). -/
def docTrunc (bow : List (ℕ × ℚ)) : ℕ := bow.countP (fun p => truncEvent p.2)

/-- A corpus element.  With `metadata=True`, `save_corpus` consumes elements of
the form `(bow, (docid, lang))`; with `metadata=False` the element is the bare
`bow` and the `docid`/`lang` fields are ignored. -/
structure MDoc where
  bow : List (ℕ × ℚ)
  docid : PyStr
  lang : PyStr
deriving DecidableEq

/-- The line written for document `i` (malletcorpus.py lines 94-106):
`'%s %s %s\n' % (doc_id, doc_lang, ' '.join(words))`, where the enumeration
index `doc_id = i` is overwritten by `doc[1]` when `metadata` is true, and
`doc_lang` is `'__unknown__'` when `metadata` is false. -/
def encodeLine (id2word : ℕ → PyStr) (metadata : Bool) (i : ℕ) (d : MDoc) : PyStr :=
  (if metadata then d.docid else natDecimal i) ++
    ' ' :: (if metadata then d.lang else uLabel) ++
      ' ' :: joinSp (docWords id2word d.bow) ++ ['\n']

/-- The writing loop of `save_corpus` (malletcorpus.py lines 92-106): walks the
corpus with the enumeration index `i`, the sink position `pos` (in bytes) and
the running truncation count `t`; records `fout.tell()` before each write.
Returns (offsets, file contents, final truncation count). -/
def saveLoop (id2word : ℕ → PyStr) (metadata : Bool) :
    List MDoc → ℕ → ℕ → ℕ → List ℕ × PyStr × ℕ
  | [], _, _, t => ([], [], t)
  | d :: rest, i, pos, t =>
    let line := encodeLine id2word metadata i d
    let r := saveLoop id2word metadata rest (i + 1) (pos + utf8Len line) (t + docTrunc d.bow)
    (pos :: r.1, line ++ r.2.1, r.2.2)

/-- Result of `save_corpus`: the returned offset list, the bytes written to the
sink, the final truncation counter, and the aggregate warnings issued
(malletcorpus.py lines 108-113: one warning carrying the count iff nonzero). -/
structure SaveResult where
  offsets : List ℕ
  file : PyStr
  truncated : ℕ
  warnings : List ℕ
deriving DecidableEq

/-- `MalletCorpus.save_corpus` (malletcorpus.py lines 69-113), writing to a
fresh sink at position 0. -/
def save_corpus (id2word : ℕ → PyStr) (metadata : Bool) (corpus : List MDoc) : SaveResult :=
  let r := saveLoop id2word metadata corpus 0 0 0
  { offsets := r.1, file := r.2.1, truncated := r.2.2,
    warnings := if r.2.2 = 0 then [] else [r.2.2] }

/-- Modelled from the spec: `LowCorpus.line2doc` (gensim/corpora/lowcorpus.py)
is not under src/; spec section 4.1, token-to-bag-of-words reduction: group
equal tokens of the line, map each distinct token through the external
token-to-id lookup (tokens absent from the mapping are silently skipped), and
emit one (id, count) pair per distinct token, count = number of occurrences of
that token in the line.  The spec fixes no order on the pairs. -/
def low_line2doc (word2id : PyStr → Option ℕ) (line : PyStr) : List (ℕ × ℕ) :=
  let ws := line2words line
  ws.dedup.filterMap (fun w => (word2id w).map (fun x => (x, ws.count w)))

/-- A decoded document: the bag-of-words, plus `(docid, label)` when metadata
mode is on (`none` when it is off). -/
structure Decoded where
  doc : List (ℕ × ℕ)
  meta : Option (PyStr × PyStr)
deriving DecidableEq

/-- `MalletCorpus.line2doc` (malletcorpus.py lines 57-66).  `none` models the
`IndexError` raised by `l[0], l[1]` when fewer than two fields remain after
stripping, splitting on spaces, and dropping empty tokens. -/
def line2doc (word2id : PyStr → Option ℕ) (metadata : Bool) (line : PyStr) : Option Decoded :=
  match line2words line with
  | docid :: doclang :: ws =>
    some { doc := low_line2doc word2id (joinSp ws),
           meta := if metadata then some (docid, doclang) else none }
  | _ => none

/-- The generator loop of `MalletCorpus.__iter__` over the file's lines:
yields `line2doc` of every line; a raising line aborts the whole iteration
(modelled as `none`). -/
def corpusIterLines (word2id : PyStr → Option ℕ) (metadata : Bool) :
    List PyStr → Option (List Decoded)
  | [] => some []
  | l :: ls =>
    match line2doc word2id metadata l, corpusIterLines word2id metadata ls with
    | some d, some ds => some (d :: ds)
    | _, _ => none

/-- `MalletCorpus.__iter__` (malletcorpus.py lines 47-55). -/
def corpusIter (word2id : PyStr → Option ℕ) (metadata : Bool) (file : PyStr) :
    Option (List Decoded) :=
  corpusIterLines word2id metadata (pyLines file)

/-- `MalletCorpus._calculate_num_docs` (malletcorpus.py lines 42-45):
`sum([1 for x in fin])`. -/
def calculate_num_docs (file : PyStr) : ℕ := ((pyLines file).map (fun _ => 1)).sum

/-- `MalletCorpus.docbyoffset` (malletcorpus.py lines 116-122):
seek to the byte offset, read one line, decode it. -/
def docbyoffset (word2id : PyStr → Option ℕ) (metadata : Bool) (file : PyStr) (off : ℕ) :
    Option Decoded :=
  line2doc word2id metadata (readline (dropBytes off file))

/-- Trailing-whitespace strip; `pystrip s = stripEnd (s.dropWhile isWS)`. -/
def stripEnd (s : PyStr) : PyStr := (s.reverse.dropWhile isWS).reverse

/-- A string that is usable as a Mallet field or token: non-empty and free of
whitespace (in particular free of the space and newline separators). -/
def Clean (w : PyStr) : Prop := w ≠ [] ∧ ∀ c ∈ w, isWS c = false

instance (w : PyStr) : Decidable (Clean w) := by
  unfold Clean
  infer_instance

/-- Closed form of the lines written by the `save_corpus` loop, starting at
enumeration index `i`. -/
def linesFrom (id2word : ℕ → PyStr) (metadata : Bool) : ℕ → List MDoc → List PyStr
  | _, [] => []
  | i, d :: rest => encodeLine id2word metadata i d :: linesFrom id2word metadata (i + 1) rest

/-- Closed form of the offsets recorded by the `save_corpus` loop: the running
byte position before each line. -/
def offsetsFrom : ℕ → List PyStr → List ℕ
  | _, [] => []
  | pos, l :: ls => pos :: offsetsFrom (pos + utf8Len l) ls

/-- Wellformedness of one corpus element for encoding: the metadata fields (when
used) and every token that can appear on the document's line are non-empty and
whitespace-free, as the line format requires of its fields. -/
def CleanDoc (id2word : ℕ → PyStr) (metadata : Bool) (d : MDoc) : Prop :=
  (metadata = true → Clean d.docid ∧ Clean d.lang) ∧ ∀ p ∈ d.bow, Clean (id2word p.1)

instance (id2word : ℕ → PyStr) (metadata : Bool) (d : MDoc) :
    Decidable (CleanDoc id2word metadata d) := by
  unfold CleanDoc
  infer_instance

/-- The decoded form of an encoded document: what reading back its line yields. -/
def decodedOf (word2id : PyStr → Option ℕ) (id2word : ℕ → PyStr) (metadata : Bool)
    (d : MDoc) : Decoded :=
  ⟨low_line2doc word2id (joinSp (docWords id2word d.bow)),
   if metadata then some (d.docid, d.lang) else none⟩

/-- Sample id-to-token mapping used by concrete witnesses. -/
def id2wCD : ℕ → PyStr := fun n => if n = 0 then ['c', 'a', 't'] else ['d', 'o', 'g']

/-- Sample token-to-id mapping, the inverse of `id2wCD` on ids 0 and 1. -/
def w2idCD : PyStr → Option ℕ := fun w =>
  if w = ['c', 'a', 't'] then some 0 else if w = ['d', 'o', 'g'] then some 1 else none

/-! ### Basic facts about the split/strip machinery -/

theorem isWS_space : isWS ' ' = true := by decide

theorem isWS_newline : isWS '\n' = true := by decide

theorem Clean.ne_nil {w : PyStr} (h : Clean w) : w ≠ [] := h.1

theorem Clean.not_space {w : PyStr} (h : Clean w) : ' ' ∉ w :=
  fun hmem => absurd (h.2 ' ' hmem) (by decide)

theorem Clean.not_newline {w : PyStr} (h : Clean w) : '\n' ∉ w :=
  fun hmem => absurd (h.2 '\n' hmem) (by decide)

theorem Clean.rev {w : PyStr} (h : Clean w) : Clean w.reverse :=
  ⟨fun hh => h.1 (List.reverse_eq_nil_iff.mp hh),
   fun c hc => h.2 c (List.mem_reverse.1 hc)⟩

theorem uLabel_clean : Clean uLabel := by decide

theorem splitSpace_no_space {w : PyStr} (h : ' ' ∉ w) : splitSpace w = [w] := by
  induction w with
  | nil => rfl
  | cons c cs ih =>
    have hc : ¬(c = ' ') := fun hh => h (hh ▸ List.mem_cons_self c cs)
    have hcs : ' ' ∉ cs := fun hh => h (List.mem_cons_of_mem c hh)
    simp only [splitSpace, hc, if_false, ih hcs]

theorem splitSpace_append {w rest : PyStr} (h : ' ' ∉ w) :
    splitSpace (w ++ ' ' :: rest) = w :: splitSpace rest := by
  induction w with
  | nil => simp [splitSpace]
  | cons c cs ih =>
    have hc : ¬(c = ' ') := fun hh => h (hh ▸ List.mem_cons_self c cs)
    have hcs : ' ' ∉ cs := fun hh => h (List.mem_cons_of_mem c hh)
    have ih' : splitSpace (cs.append (' ' :: rest)) = cs :: splitSpace rest := ih hcs
    simp only [List.cons_append, splitSpace, hc, if_false, ih']

theorem splitSpace_joinSp {ws : List PyStr} (hne : ws ≠ []) (h : ∀ w ∈ ws, ' ' ∉ w) :
    splitSpace (joinSp ws) = ws := by
  induction ws with
  | nil => cases hne rfl
  | cons w rest ih =>
    cases rest with
    | nil => exact splitSpace_no_space (h w (List.mem_cons_self w []))
    | cons x xs =>
      rw [joinSp, splitSpace_append (h w (List.mem_cons_self w (x :: xs))),
        ih (by simp) (fun u hu => h u (List.mem_cons_of_mem w hu))]

theorem mem_joinSp {ws : List PyStr} {c : Char} :
    c ∈ joinSp ws → c = ' ' ∨ ∃ w ∈ ws, c ∈ w := by
  induction ws with
  | nil => intro h; simp [joinSp] at h
  | cons w rest ih =>
    intro h
    cases rest with
    | nil => exact Or.inr ⟨w, List.mem_cons_self w [], h⟩
    | cons x xs =>
      rw [joinSp] at h
      rcases List.mem_append.1 h with h1 | h2
      · exact Or.inr ⟨w, List.mem_cons_self w (x :: xs), h1⟩
      · rcases List.mem_cons.1 h2 with rfl | h3
        · exact Or.inl rfl
        · rcases ih h3 with h4 | ⟨u, hu, hcu⟩
          · exact Or.inl h4
          · exact Or.inr ⟨u, List.mem_cons_of_mem w hu, hcu⟩

theorem joinSp_ends_clean : ∀ (ws : List PyStr), ws ≠ [] → (∀ w ∈ ws, Clean w) →
    ∃ u lw, joinSp ws = u ++ lw ∧ Clean lw := by
  intro ws
  induction ws with
  | nil => intro h; cases h rfl
  | cons w rest ih =>
    intro _ h
    cases rest with
    | nil => exact ⟨[], w, by simp [joinSp], h w (List.mem_cons_self w [])⟩
    | cons x xs =>
      obtain ⟨u, lw, heq, hcl⟩ := ih (by simp) (fun a ha => h a (List.mem_cons_of_mem w ha))
      refine ⟨w ++ ' ' :: u, lw, ?_, hcl⟩
      rw [joinSp, heq]
      simp

theorem dropWhile_isWS_clean_head {w r : PyStr} (hw : Clean w) :
    List.dropWhile isWS (w ++ r) = w ++ r := by
  cases w with
  | nil => exact absurd rfl hw.1
  | cons c cs =>
    have hc : isWS c = false := hw.2 c (List.mem_cons_self c cs)
    simp [List.dropWhile_cons, hc]

theorem pystrip_eq (s : PyStr) : pystrip s = stripEnd (s.dropWhile isWS) := rfl

theorem stripEnd_append_ws {s : PyStr} {c : Char} (hc : isWS c = true) :
    stripEnd (s ++ [c]) = stripEnd s := by
  unfold stripEnd
  rw [List.reverse_append]
  simp [List.dropWhile_cons, hc]

theorem stripEnd_append_clean {u w : PyStr} (hw : Clean w) :
    stripEnd (u ++ w) = u ++ w := by
  unfold stripEnd
  rw [List.reverse_append, dropWhile_isWS_clean_head hw.rev, ← List.reverse_append,
    List.reverse_reverse]

theorem stripEnd_body_nil {docid lang : PyStr} (hl : Clean lang) :
    stripEnd (docid ++ (' ' :: (lang ++ [' ', '\n']))) = docid ++ (' ' :: lang) := by
  have h1 : docid ++ (' ' :: (lang ++ [' ', '\n'])) =
      ((docid ++ (' ' :: lang)) ++ [' ']) ++ ['\n'] := by simp
  have h2 : docid ++ (' ' :: lang) = (docid ++ [' ']) ++ lang := by simp
  rw [h1, stripEnd_append_ws isWS_newline, stripEnd_append_ws isWS_space, h2,
    stripEnd_append_clean hl]

theorem stripEnd_body_cons {docid lang u lw : PyStr} (hlw : Clean lw) :
    stripEnd (docid ++ (' ' :: (lang ++ (' ' :: ((u ++ lw) ++ ['\n']))))) =
      docid ++ (' ' :: (lang ++ (' ' :: (u ++ lw)))) := by
  have h1 : docid ++ (' ' :: (lang ++ (' ' :: ((u ++ lw) ++ ['\n'])))) =
      (docid ++ (' ' :: (lang ++ (' ' :: (u ++ lw))))) ++ ['\n'] := by simp
  have h2 : docid ++ (' ' :: (lang ++ (' ' :: (u ++ lw)))) =
      (docid ++ (' ' :: (lang ++ (' ' :: u)))) ++ lw := by simp
  rw [h1, stripEnd_append_ws isWS_newline, h2, stripEnd_append_clean hlw]

theorem pystrip_joinSp {ws : List PyStr} (h : ∀ w ∈ ws, Clean w) :
    pystrip (joinSp ws) = joinSp ws := by
  cases ws with
  | nil => rfl
  | cons w rest =>
    rw [pystrip_eq]
    have hw : Clean w := h w (List.mem_cons_self w rest)
    have hfront : List.dropWhile isWS (joinSp (w :: rest)) = joinSp (w :: rest) := by
      cases rest with
      | nil =>
        have h0 := @dropWhile_isWS_clean_head w [] hw
        simpa using h0
      | cons x xs => rw [joinSp]; exact dropWhile_isWS_clean_head hw
    rw [hfront]
    obtain ⟨u, lw, heq, hlw⟩ := joinSp_ends_clean (w :: rest) (by simp) h
    rw [heq]
    exact stripEnd_append_clean hlw

theorem line2words_joinSp {ws : List PyStr} (h : ∀ w ∈ ws, Clean w) :
    line2words (joinSp ws) = ws := by
  unfold line2words
  rw [pystrip_joinSp h]
  cases ws with
  | nil => rfl
  | cons w rest =>
    rw [splitSpace_joinSp (by simp) (fun u hu => (h u hu).not_space)]
    refine List.filter_eq_self.2 ?_
    intro a ha
    have hne : a ≠ [] := (h a ha).1
    simpa using hne

theorem line2words_line {docid lang : PyStr} {ws : List PyStr}
    (hd : Clean docid) (hl : Clean lang) (hws : ∀ w ∈ ws, Clean w) :
    line2words (docid ++ ' ' :: lang ++ ' ' :: joinSp ws ++ ['\n']) = docid :: lang :: ws := by
  have hE : docid ++ ' ' :: lang ++ ' ' :: joinSp ws ++ ['\n'] =
      docid ++ (' ' :: (lang ++ (' ' :: (joinSp ws ++ ['\n'])))) := by simp
  rw [hE]
  unfold line2words
  rw [pystrip_eq, dropWhile_isWS_clean_head hd]
  cases ws with
  | nil =>
    have hshape : docid ++ (' ' :: (lang ++ (' ' :: (joinSp [] ++ ['\n'])))) =
        docid ++ (' ' :: (lang ++ [' ', '\n'])) := by simp [joinSp]
    rw [hshape, stripEnd_body_nil hl,
      splitSpace_append hd.not_space, splitSpace_no_space hl.not_space]
    have h1 : docid ≠ [] := hd.1
    have h2 : lang ≠ [] := hl.1
    simp [List.filter_cons, h1, h2]
  | cons x xs =>
    obtain ⟨u, lw, heq, hlw⟩ := joinSp_ends_clean (x :: xs) (by simp) hws
    have hshape : docid ++ (' ' :: (lang ++ (' ' :: (joinSp (x :: xs) ++ ['\n'])))) =
        docid ++ (' ' :: (lang ++ (' ' :: ((u ++ lw) ++ ['\n'])))) := by rw [heq]
    rw [hshape, stripEnd_body_cons hlw, ← heq,
      splitSpace_append hd.not_space, splitSpace_append hl.not_space,
      splitSpace_joinSp (by simp) (fun a ha => (hws a ha).not_space)]
    refine List.filter_eq_self.2 ?_
    intro a ha
    have hne : a ≠ [] := by
      rcases List.mem_cons.1 ha with rfl | ha1
      · exact hd.1
      rcases List.mem_cons.1 ha1 with rfl | ha2
      · exact hl.1
      · exact (hws a ha2).1
    simpa using hne

/-! ### Decimal doc-ids are clean -/

theorem toDigitsCore_eq_nil {b : ℕ} :
    ∀ (fuel n : ℕ) (acc : List Char), Nat.toDigitsCore b fuel n acc = [] → acc = [] := by
  intro fuel
  induction fuel with
  | zero => intro n acc h; exact h
  | succ f ih =>
    intro n acc h
    rw [Nat.toDigitsCore] at h
    by_cases hb : n / b = 0
    · rw [if_pos hb] at h
      cases h
    · rw [if_neg hb] at h
      have := ih (n / b) (Nat.digitChar (n % b) :: acc) h
      cases this

theorem toDigitsCore_ne_nil {b : ℕ} {fuel n : ℕ} {acc : List Char} (hf : fuel ≠ 0) :
    Nat.toDigitsCore b fuel n acc ≠ [] := by
  cases fuel with
  | zero => cases hf rfl
  | succ f =>
    intro h
    rw [Nat.toDigitsCore] at h
    by_cases hb : n / b = 0
    · rw [if_pos hb] at h
      cases h
    · rw [if_neg hb] at h
      have := toDigitsCore_eq_nil f (n / b) (Nat.digitChar (n % b) :: acc) h
      cases this

theorem mem_toDigitsCore {b : ℕ} :
    ∀ (fuel n : ℕ) (acc : List Char) (c : Char), c ∈ Nat.toDigitsCore b fuel n acc →
      c ∈ acc ∨ ∃ m, c = Nat.digitChar m := by
  intro fuel
  induction fuel with
  | zero => intro n acc c h; exact Or.inl h
  | succ f ih =>
    intro n acc c h
    rw [Nat.toDigitsCore] at h
    by_cases hb : n / b = 0
    · rw [if_pos hb] at h
      rcases List.mem_cons.1 h with rfl | h2
      · exact Or.inr ⟨n % b, rfl⟩
      · exact Or.inl h2
    · rw [if_neg hb] at h
      rcases ih (n / b) (Nat.digitChar (n % b) :: acc) c h with h2 | h2
      · rcases List.mem_cons.1 h2 with rfl | h3
        · exact Or.inr ⟨n % b, rfl⟩
        · exact Or.inl h3
      · exact Or.inr h2

theorem digitChar_not_WS (m : ℕ) : isWS (Nat.digitChar m) = false := by
  unfold Nat.digitChar
  simp only [apply_ite isWS]
  simp +decide [isWS]

theorem natDecimal_clean (n : ℕ) : Clean (natDecimal n) := by
  constructor
  · exact toDigitsCore_ne_nil (Nat.succ_ne_zero n)
  · intro c hc
    rcases mem_toDigitsCore (n + 1) n [] c hc with h | ⟨m, rfl⟩
    · cases h
    · exact digitChar_not_WS m

/-! ### File structure: lines, readline, seek -/

theorem pyLines_line {body rest : PyStr} (h : '\n' ∉ body) :
    pyLines (body ++ '\n' :: rest) = (body ++ ['\n']) :: pyLines rest := by
  induction body with
  | nil => simp [pyLines]
  | cons c cs ih =>
    have hc : ¬(c = '\n') := fun hh => h (hh ▸ List.mem_cons_self c cs)
    have hcs : '\n' ∉ cs := fun hh => h (List.mem_cons_of_mem c hh)
    have ih' : pyLines (cs.append ('\n' :: rest)) = (cs ++ ['\n']) :: pyLines rest := ih hcs
    simp only [List.cons_append, pyLines, hc, if_false, ih']

theorem readline_line {body rest : PyStr} (h : '\n' ∉ body) :
    readline (body ++ '\n' :: rest) = body ++ ['\n'] := by
  induction body with
  | nil => simp [readline]
  | cons c cs ih =>
    have hc : ¬(c = '\n') := fun hh => h (hh ▸ List.mem_cons_self c cs)
    have hcs : '\n' ∉ cs := fun hh => h (List.mem_cons_of_mem c hh)
    have ih' : readline (cs.append ('\n' :: rest)) = cs ++ ['\n'] := ih hcs
    simp only [List.cons_append, readline, hc, if_false, ih']

theorem utf8Len_append (u v : PyStr) : utf8Len (u ++ v) = utf8Len u + utf8Len v := by
  unfold utf8Len
  rw [List.map_append, List.sum_append]

theorem utf8Len_pos {u : PyStr} (h : u ≠ []) : 0 < utf8Len u := by
  cases u with
  | nil => cases h rfl
  | cons c cs =>
    unfold utf8Len
    have := Char.utf8Size_pos c
    simp [List.map_cons]
    omega

theorem dropBytes_utf8Len (u v : PyStr) : dropBytes (utf8Len u) (u ++ v) = v := by
  induction u with
  | nil =>
    cases v with
    | nil => rfl
    | cons c cs => simp [dropBytes, utf8Len]
  | cons c cs ih =>
    have hpos := Char.utf8Size_pos c
    have hne : utf8Len (c :: cs) ≠ 0 := by
      unfold utf8Len
      simp
      omega
    have harith : utf8Len (c :: cs) - c.utf8Size = utf8Len cs := by
      unfold utf8Len
      simp
    simp only [List.cons_append, dropBytes, hne, if_false, harith]
    exact ih

/-! ### Closed forms of the save loop -/

theorem saveLoop_file (id2word : ℕ → PyStr) (metadata : Bool) :
    ∀ (corpus : List MDoc) (i pos t : ℕ),
      (saveLoop id2word metadata corpus i pos t).2.1 =
        (linesFrom id2word metadata i corpus).flatten := by
  intro corpus
  induction corpus with
  | nil => intro i pos t; rfl
  | cons d rest ih =>
    intro i pos t
    rw [saveLoop, linesFrom, List.flatten_cons]
    rw [ih]

theorem saveLoop_offsets (id2word : ℕ → PyStr) (metadata : Bool) :
    ∀ (corpus : List MDoc) (i pos t : ℕ),
      (saveLoop id2word metadata corpus i pos t).1 =
        offsetsFrom pos (linesFrom id2word metadata i corpus) := by
  intro corpus
  induction corpus with
  | nil => intro i pos t; rfl
  | cons d rest ih =>
    intro i pos t
    rw [saveLoop, linesFrom, offsetsFrom]
    rw [ih]

theorem saveLoop_trunc (id2word : ℕ → PyStr) (metadata : Bool) :
    ∀ (corpus : List MDoc) (i pos t : ℕ),
      (saveLoop id2word metadata corpus i pos t).2.2 =
        t + (corpus.map (fun d => docTrunc d.bow)).sum := by
  intro corpus
  induction corpus with
  | nil => intro i pos t; simp [saveLoop]
  | cons d rest ih =>
    intro i pos t
    rw [saveLoop, List.map_cons, List.sum_cons]
    rw [ih]
    omega

theorem encodeLine_ne_nil (id2word : ℕ → PyStr) (metadata : Bool) (i : ℕ) (d : MDoc) :
    encodeLine id2word metadata i d ≠ [] := by
  unfold encodeLine
  simp

theorem encodeLine_clean_body (id2word : ℕ → PyStr) (metadata : Bool) (i : ℕ) (d : MDoc)
    (hd : Clean (if metadata then d.docid else natDecimal i))
    (hl : Clean (if metadata then d.lang else uLabel))
    (hws : ∀ w ∈ docWords id2word d.bow, Clean w) :
    ∃ body, encodeLine id2word metadata i d = body ++ '\n' :: [] ∧ '\n' ∉ body := by
  refine ⟨(if metadata then d.docid else natDecimal i) ++
    (' ' :: ((if metadata then d.lang else uLabel) ++
      (' ' :: joinSp (docWords id2word d.bow)))), ?_, ?_⟩
  · unfold encodeLine
    simp
  intro hmem
  rcases List.mem_append.1 hmem with h1 | h2
  · exact hd.not_newline h1
  rcases List.mem_cons.1 h2 with heq | h3
  · exact absurd heq.symm (by decide)
  rcases List.mem_append.1 h3 with h4 | h5
  · exact hl.not_newline h4
  rcases List.mem_cons.1 h5 with heq | h6
  · exact absurd heq.symm (by decide)
  rcases mem_joinSp h6 with heq | ⟨w, hw, hcw⟩
  · exact absurd heq (by decide)
  · exact (hws w hw).not_newline hcw

/-! ### Decoding an encoded line -/

theorem cleanDoc_fields {id2word : ℕ → PyStr} {metadata : Bool} {d : MDoc}
    (h : CleanDoc id2word metadata d) (i : ℕ) :
    Clean (if metadata then d.docid else natDecimal i) ∧
      Clean (if metadata then d.lang else uLabel) ∧
      ∀ w ∈ docWords id2word d.bow, Clean w := by
  refine ⟨?_, ?_, ?_⟩
  · cases metadata with
    | false => exact natDecimal_clean i
    | true => exact (h.1 rfl).1
  · cases metadata with
    | false => exact uLabel_clean
    | true => exact (h.1 rfl).2
  · intro w hw
    unfold docWords at hw
    rcases List.mem_flatMap.1 hw with ⟨p, hp, hrep⟩
    rcases (List.mem_replicate.1 hrep) with ⟨-, rfl⟩
    exact h.2 p hp

theorem line2doc_encodeLine {word2id : PyStr → Option ℕ} {id2word : ℕ → PyStr}
    {metadata : Bool} {i : ℕ} {d : MDoc}
    (h : CleanDoc id2word metadata d) :
    line2doc word2id metadata (encodeLine id2word metadata i d) =
      some (decodedOf word2id id2word metadata d) := by
  obtain ⟨hd, hl, hws⟩ := cleanDoc_fields h i
  unfold line2doc encodeLine decodedOf
  rw [line2words_line hd hl hws]
  cases metadata with
  | false => rfl
  | true => rfl

theorem mem_docWords {id2word : ℕ → PyStr} {bow : List (ℕ × ℚ)} {w : PyStr} :
    w ∈ docWords id2word bow ↔
      ∃ p ∈ bow, (ratTrunc p.2).toNat ≠ 0 ∧ w = id2word p.1 := by
  unfold docWords
  rw [List.mem_flatMap]
  constructor
  · rintro ⟨p, hp, hrep⟩
    rcases List.mem_replicate.1 hrep with ⟨hne, rfl⟩
    exact ⟨p, hp, hne, rfl⟩
  · rintro ⟨p, hp, hne, rfl⟩
    exact ⟨p, hp, List.mem_replicate.2 ⟨hne, rfl⟩⟩

theorem count_docWords {id2word : ℕ → PyStr} :
    ∀ {bow : List (ℕ × ℚ)} {x : ℕ} {c : ℚ}, (x, c) ∈ bow →
      (bow.map Prod.fst).Nodup →
      (∀ p ∈ bow, ∀ q ∈ bow, id2word p.1 = id2word q.1 → p.1 = q.1) →
      (docWords id2word bow).count (id2word x) = (ratTrunc c).toNat := by
  intro bow
  induction bow with
  | nil => intro x c hmem; cases hmem
  | cons p rest ih =>
    intro x c hmem hnodup hinj
    have hcons : p.1 ∉ rest.map Prod.fst ∧ (rest.map Prod.fst).Nodup := by
      rw [List.map_cons, List.nodup_cons] at hnodup
      exact hnodup
    unfold docWords
    rw [List.flatMap_cons, List.count_append]
    rcases List.mem_cons.1 hmem with heq | hmem2
    · have hx : p = (x, c) := heq.symm
      subst hx
      have h1 : List.count (id2word x) (List.replicate (ratTrunc c).toNat (id2word x)) =
          (ratTrunc c).toNat := by
        rw [List.count_replicate]
        simp
      have h2 : List.count (id2word x) (docWords id2word rest) = 0 := by
        rw [List.count_eq_zero]
        intro hmem3
        rcases mem_docWords.1 hmem3 with ⟨q, hq, -, heqw⟩
        have hq1x : q.1 = x :=
          hinj q (List.mem_cons_of_mem _ hq) (x, c) (List.mem_cons_self _ _) heqw.symm
        have hq1 : q.1 ∈ rest.map Prod.fst := List.mem_map_of_mem Prod.fst hq
        rw [hq1x] at hq1
        exact hcons.1 hq1
      unfold docWords at h2
      rw [h1, h2]
      omega
    · have hne : id2word p.1 ≠ id2word x := by
        intro heqw
        have : p.1 = x :=
          hinj p (List.mem_cons_self _ _) (x, c) (List.mem_cons_of_mem _ hmem2) heqw
        exact hcons.1 (this ▸ List.mem_map_of_mem Prod.fst hmem2)
      have h1 : List.count (id2word x) (List.replicate (ratTrunc p.2).toNat (id2word p.1)) = 0 := by
        rw [List.count_replicate, if_neg]
        simp [hne]
      have h2 := ih hmem2 hcons.2
        (fun a ha b hb => hinj a (List.mem_cons_of_mem _ ha) b (List.mem_cons_of_mem _ hb))
      unfold docWords at h2
      rw [h1, h2]
      omega

/-! ### Decoding characterization of an encoded document -/

theorem mem_low_line2doc_docWords {word2id : PyStr → Option ℕ} {id2word : ℕ → PyStr}
    {bow : List (ℕ × ℚ)}
    (hnodup : (bow.map Prod.fst).Nodup)
    (htok : ∀ p ∈ bow, Clean (id2word p.1))
    (hinj : ∀ p ∈ bow, ∀ q ∈ bow, id2word p.1 = id2word q.1 → p.1 = q.1)
    (hinv : ∀ p ∈ bow, word2id (id2word p.1) = some p.1)
    (x : ℕ) (n : ℕ) :
    (x, n) ∈ low_line2doc word2id (joinSp (docWords id2word bow)) ↔
      ∃ c : ℚ, (x, c) ∈ bow ∧ (ratTrunc c).toNat = n ∧ n ≠ 0 := by
  have hclean : ∀ w ∈ docWords id2word bow, Clean w := by
    intro w hw
    rcases mem_docWords.1 hw with ⟨p, hp, -, rfl⟩
    exact htok p hp
  unfold low_line2doc
  rw [line2words_joinSp hclean]
  constructor
  · intro hmem
    rcases List.mem_filterMap.1 hmem with ⟨w, hwdedup, heq⟩
    rcases Option.map_eq_some'.1 heq with ⟨y, hy, heq2⟩
    have hwmem : w ∈ docWords id2word bow := List.mem_dedup.1 hwdedup
    rcases mem_docWords.1 hwmem with ⟨p, hp, hne0, rfl⟩
    have hyx : y = p.1 := by
      have h1 := hinv p hp
      rw [h1] at hy
      exact (Option.some.inj hy).symm
    have hx : p.1 = x := by
      have := congrArg Prod.fst heq2
      simpa [hyx] using this
    have hn : (docWords id2word bow).count (id2word p.1) = n := by
      have := congrArg Prod.snd heq2
      simpa using this
    have hcount : (docWords id2word bow).count (id2word p.1) = (ratTrunc p.2).toNat :=
      count_docWords (by simpa using hp) hnodup hinj
    refine ⟨p.2, ?_, ?_, ?_⟩
    · rw [← hx]
      simpa using hp
    · rw [← hn, hcount]
    · rw [← hn, hcount]
      exact hne0
  · rintro ⟨c, hc, hn, hne⟩
    have hwmem : id2word x ∈ docWords id2word bow := by
      apply mem_docWords.2
      refine ⟨(x, c), hc, ?_, rfl⟩
      rw [hn]
      exact hne
    apply List.mem_filterMap.2
    refine ⟨id2word x, List.mem_dedup.2 hwmem, ?_⟩
    have hinvx : word2id (id2word x) = some x := hinv (x, c) hc
    rw [hinvx, Option.map_some']
    have hcount : (docWords id2word bow).count (id2word x) = (ratTrunc c).toNat :=
      count_docWords hc hnodup hinj
    rw [hcount, hn]

/-! ### Iterating and random-accessing an encoded corpus -/

theorem corpusIterLines_linesFrom {word2id : PyStr → Option ℕ} {id2word : ℕ → PyStr}
    {metadata : Bool} :
    ∀ (corpus : List MDoc) (i : ℕ), (∀ d ∈ corpus, CleanDoc id2word metadata d) →
      corpusIterLines word2id metadata (linesFrom id2word metadata i corpus) =
        some (corpus.map (decodedOf word2id id2word metadata)) := by
  intro corpus
  induction corpus with
  | nil => intro i h; rfl
  | cons d rest ih =>
    intro i h
    have h1 := @line2doc_encodeLine word2id id2word metadata i d
      (h d (List.mem_cons_self d rest))
    have h2 := ih (i + 1) (fun a ha => h a (List.mem_cons_of_mem d ha))
    simp only [linesFrom, corpusIterLines, h1, h2, List.map_cons]

theorem pyLines_linesFrom {id2word : ℕ → PyStr} {metadata : Bool} :
    ∀ (corpus : List MDoc) (i : ℕ), (∀ d ∈ corpus, CleanDoc id2word metadata d) →
      pyLines (linesFrom id2word metadata i corpus).flatten =
        linesFrom id2word metadata i corpus := by
  intro corpus
  induction corpus with
  | nil => intro i h; rfl
  | cons d rest ih =>
    intro i h
    obtain ⟨hd, hl, hws⟩ := cleanDoc_fields (h d (List.mem_cons_self d rest)) i
    obtain ⟨body, hbody, hnl⟩ :=
      encodeLine_clean_body id2word metadata i d hd hl hws
    rw [linesFrom, List.flatten_cons, hbody]
    have hshape : (body ++ '\n' :: []) ++ (linesFrom id2word metadata (i + 1) rest).flatten =
        body ++ '\n' :: (linesFrom id2word metadata (i + 1) rest).flatten := by simp
    rw [hshape, pyLines_line hnl,
      ih (i + 1) (fun a ha => h a (List.mem_cons_of_mem d ha))]

theorem corpusIter_save {word2id : PyStr → Option ℕ} {id2word : ℕ → PyStr}
    {metadata : Bool} {corpus : List MDoc}
    (hclean : ∀ d ∈ corpus, CleanDoc id2word metadata d) :
    corpusIter word2id metadata (save_corpus id2word metadata corpus).file =
      some (corpus.map (decodedOf word2id id2word metadata)) := by
  show corpusIterLines word2id metadata
      (pyLines ((saveLoop id2word metadata corpus 0 0 0).2.1)) = _
  rw [saveLoop_file, pyLines_linesFrom corpus 0 hclean,
    corpusIterLines_linesFrom corpus 0 hclean]

theorem offsetsFrom_length : ∀ (ls : List PyStr) (pos : ℕ),
    (offsetsFrom pos ls).length = ls.length := by
  intro ls
  induction ls with
  | nil => intro pos; rfl
  | cons l rest ih =>
    intro pos
    rw [offsetsFrom, List.length_cons, List.length_cons, ih]

theorem mem_offsetsFrom_ge : ∀ (ls : List PyStr) (pos x : ℕ), x ∈ offsetsFrom pos ls → pos ≤ x := by
  intro ls
  induction ls with
  | nil => intro pos x h; cases h
  | cons l rest ih =>
    intro pos x h
    rw [offsetsFrom] at h
    rcases List.mem_cons.1 h with rfl | h2
    · exact le_refl x
    · have := ih (pos + utf8Len l) x h2
      omega

theorem offsetsFrom_pairwise : ∀ (ls : List PyStr), (∀ l ∈ ls, l ≠ []) → ∀ pos : ℕ,
    List.Pairwise (fun a b => a < b) (offsetsFrom pos ls) := by
  intro ls
  induction ls with
  | nil => intro _ pos; exact List.Pairwise.nil
  | cons l rest ih =>
    intro h pos
    rw [offsetsFrom, List.pairwise_cons]
    constructor
    · intro x hx
      have h1 := mem_offsetsFrom_ge rest (pos + utf8Len l) x hx
      have h2 := utf8Len_pos (h l (List.mem_cons_self l rest))
      omega
    · exact ih (fun a ha => h a (List.mem_cons_of_mem l ha)) (pos + utf8Len l)

theorem linesFrom_length {id2word : ℕ → PyStr} {metadata : Bool} :
    ∀ (corpus : List MDoc) (i : ℕ),
      (linesFrom id2word metadata i corpus).length = corpus.length := by
  intro corpus
  induction corpus with
  | nil => intro i; rfl
  | cons d rest ih =>
    intro i
    rw [linesFrom, List.length_cons, List.length_cons, ih]

theorem linesFrom_getElem? {id2word : ℕ → PyStr} {metadata : Bool} :
    ∀ (corpus : List MDoc) (i j : ℕ),
      (linesFrom id2word metadata i corpus)[j]? =
        (corpus[j]?).map (fun d => encodeLine id2word metadata (i + j) d) := by
  intro corpus
  induction corpus with
  | nil => intro i j; simp [linesFrom]
  | cons d rest ih =>
    intro i j
    cases j with
    | zero => simp [linesFrom]
    | succ j =>
      rw [linesFrom, List.getElem?_cons_succ, List.getElem?_cons_succ, ih (i + 1) j,
        show i + (j + 1) = i + 1 + j by omega]

theorem offsetsFrom_getElem? : ∀ (ls : List PyStr) (pos j : ℕ), j < ls.length →
    (offsetsFrom pos ls)[j]? = some (pos + utf8Len (ls.take j).flatten) := by
  intro ls
  induction ls with
  | nil => intro pos j h; cases h
  | cons l rest ih =>
    intro pos j h
    cases j with
    | zero => simp [offsetsFrom, utf8Len]
    | succ j =>
      rw [offsetsFrom, List.getElem?_cons_succ,
        ih (pos + utf8Len l) j (by simpa using Nat.lt_of_succ_lt_succ h),
        List.take_succ_cons, List.flatten_cons, utf8Len_append]
      rw [Option.some.injEq]
      omega

theorem docbyoffset_save {word2id : PyStr → Option ℕ} {id2word : ℕ → PyStr}
    {metadata : Bool} {corpus : List MDoc}
    (hclean : ∀ d ∈ corpus, CleanDoc id2word metadata d)
    {j : ℕ} (hj : j < corpus.length) {off : ℕ}
    (hoff : (save_corpus id2word metadata corpus).offsets[j]? = some off) :
    docbyoffset word2id metadata (save_corpus id2word metadata corpus).file off =
      some (decodedOf word2id id2word metadata (corpus.get ⟨j, hj⟩)) := by
  have hfile : (save_corpus id2word metadata corpus).file =
      (linesFrom id2word metadata 0 corpus).flatten :=
    saveLoop_file id2word metadata corpus 0 0 0
  have hoffs : (save_corpus id2word metadata corpus).offsets =
      offsetsFrom 0 (linesFrom id2word metadata 0 corpus) :=
    saveLoop_offsets id2word metadata corpus 0 0 0
  have hjL : j < (linesFrom id2word metadata 0 corpus).length := by
    rw [linesFrom_length]
    exact hj
  rw [hoffs, offsetsFrom_getElem? _ 0 j hjL, Option.some.injEq] at hoff
  have hoffeq : off = utf8Len ((linesFrom id2word metadata 0 corpus).take j).flatten := by
    omega
  have hsplit : (linesFrom id2word metadata 0 corpus).flatten =
      ((linesFrom id2word metadata 0 corpus).take j).flatten ++
        ((linesFrom id2word metadata 0 corpus).drop j).flatten := by
    rw [← List.flatten_append, List.take_append_drop]
  have hgetL : (linesFrom id2word metadata 0 corpus)[j]? =
      some (encodeLine id2word metadata (0 + j) (corpus.get ⟨j, hj⟩)) := by
    rw [linesFrom_getElem? corpus 0 j, List.getElem?_eq_getElem hj, Option.map_some',
      List.get_eq_getElem]
  have hdrop : (linesFrom id2word metadata 0 corpus).drop j =
      encodeLine id2word metadata (0 + j) (corpus.get ⟨j, hj⟩) ::
        (linesFrom id2word metadata 0 corpus).drop (j + 1) := by
    rw [List.drop_eq_getElem_cons hjL]
    rw [List.getElem?_eq_getElem hjL, Option.some.injEq] at hgetL
    rw [hgetL]
  unfold docbyoffset
  rw [hfile, hoffeq, hsplit, dropBytes_utf8Len, hdrop, List.flatten_cons]
  have hmem : corpus.get ⟨j, hj⟩ ∈ corpus := by
    rw [List.get_eq_getElem]
    exact List.getElem_mem hj
  obtain ⟨hd, hl, hws⟩ := cleanDoc_fields (hclean _ hmem) (0 + j)
  obtain ⟨body, hbody, hnl⟩ :=
    encodeLine_clean_body id2word metadata (0 + j) (corpus.get ⟨j, hj⟩) hd hl hws
  have hshape : (body ++ '\n' :: []) ++
      ((linesFrom id2word metadata 0 corpus).drop (j + 1)).flatten =
        body ++ '\n' :: ((linesFrom id2word metadata 0 corpus).drop (j + 1)).flatten := by
    simp
  rw [hbody, hshape, readline_line hnl, show body ++ ['\n'] = body ++ '\n' :: [] from rfl,
    ← hbody]
  exact line2doc_encodeLine (hclean _ hmem)

/-! ### Remaining helper lemmas -/

theorem mem_of_getElem_some {α : Type} {l : List α} {n : ℕ} {a : α}
    (h : l[n]? = some a) : a ∈ l := by
  rcases List.getElem?_eq_some.1 h with ⟨hlt, rfl⟩
  exact List.getElem_mem hlt

theorem ratTrunc_natCast (n : ℕ) : ratTrunc (n : ℚ) = (n : ℤ) := by
  unfold ratTrunc
  rw [if_pos (by positivity), Int.floor_natCast]

theorem ratTrunc_natCast_toNat (n : ℕ) : (ratTrunc (n : ℚ)).toNat = n := by
  rw [ratTrunc_natCast, Int.toNat_natCast]

theorem corpusIterLines_all_some {word2id : PyStr → Option ℕ} {metadata : Bool} :
    ∀ (ls : List PyStr), (∀ l ∈ ls, (line2doc word2id metadata l).isSome) →
      ∃ ds, corpusIterLines word2id metadata ls = some ds ∧ ds.length = ls.length ∧
        ∀ (j : ℕ) (l : PyStr), ls[j]? = some l → ds[j]? = line2doc word2id metadata l := by
  intro ls
  induction ls with
  | nil =>
    intro _
    refine ⟨[], rfl, rfl, ?_⟩
    intro j l h
    simp at h
  | cons l rest ih =>
    intro h
    rcases Option.isSome_iff_exists.1 (h l (List.mem_cons_self l rest)) with ⟨d, hd⟩
    rcases ih (fun a ha => h a (List.mem_cons_of_mem l ha)) with ⟨ds, hds, hlen, hidx⟩
    refine ⟨d :: ds, ?_, ?_, ?_⟩
    · rw [corpusIterLines, hd, hds]
    · rw [List.length_cons, List.length_cons, hlen]
    · intro j a ha
      cases j with
      | zero =>
        rw [List.getElem?_cons_zero, Option.some.injEq] at ha
        rw [List.getElem?_cons_zero, ← ha, hd]
      | succ j =>
        rw [List.getElem?_cons_succ] at ha
        rw [List.getElem?_cons_succ]
        exact hidx j a ha

theorem linesFrom_ne_nil {id2word : ℕ → PyStr} {metadata : Bool} :
    ∀ (corpus : List MDoc) (i : ℕ) (l : PyStr),
      l ∈ linesFrom id2word metadata i corpus → l ≠ [] := by
  intro corpus
  induction corpus with
  | nil => intro i l h; cases h
  | cons d rest ih =>
    intro i l h
    rw [linesFrom] at h
    rcases List.mem_cons.1 h with rfl | h2
    · exact encodeLine_ne_nil id2word metadata i d
    · exact ih (i + 1) l h2

theorem trunc_total (corpus : List MDoc) :
    (corpus.map (fun d => docTrunc d.bow)).sum =
      (corpus.flatMap (fun d => d.bow)).countP (fun p => truncEvent p.2) := by
  rw [List.countP_flatMap]
  rfl

theorem docWords_append (id2word : ℕ → PyStr) (b1 b2 : List (ℕ × ℚ)) :
    docWords id2word (b1 ++ b2) = docWords id2word b1 ++ docWords id2word b2 := by
  unfold docWords
  rw [List.flatMap_append]

theorem line2words_encodeLine {id2word : ℕ → PyStr} {metadata : Bool} {i : ℕ} {d : MDoc}
    (hd : Clean (if metadata then d.docid else natDecimal i))
    (hl : Clean (if metadata then d.lang else uLabel))
    (hws : ∀ w ∈ docWords id2word d.bow, Clean w) :
    line2words (encodeLine id2word metadata i d) =
      (if metadata then d.docid else natDecimal i) ::
        (if metadata then d.lang else uLabel) :: docWords id2word d.bow := by
  unfold encodeLine
  exact line2words_line hd hl hws

theorem sum_map_one {α : Type} (l : List α) : (l.map (fun _ => (1 : ℕ))).sum = l.length := by
  induction l with
  | nil => rfl
  | cons a l ih =>
    simp [ih]
    omega

theorem decoded_doc_mem_iff {word2id : PyStr → Option ℕ} {id2word : ℕ → PyStr}
    {d : MDoc} {metadata : Bool}
    (hpos : ∀ p ∈ d.bow, ∃ n : ℕ, 0 < n ∧ p.2 = (n : ℚ))
    (hnodup : (d.bow.map Prod.fst).Nodup)
    (htok : ∀ p ∈ d.bow, Clean (id2word p.1))
    (hinj : ∀ p ∈ d.bow, ∀ q ∈ d.bow, id2word p.1 = id2word q.1 → p.1 = q.1)
    (hinv : ∀ p ∈ d.bow, word2id (id2word p.1) = some p.1)
    (x n : ℕ) :
    (x, n) ∈ (decodedOf word2id id2word metadata d).doc ↔ (x, (n : ℚ)) ∈ d.bow := by
  show (x, n) ∈ low_line2doc word2id (joinSp (docWords id2word d.bow)) ↔ _
  rw [mem_low_line2doc_docWords hnodup htok hinj hinv x n]
  constructor
  · rintro ⟨c, hcmem, htn, hne⟩
    rcases hpos (x, c) hcmem with ⟨m, hm, hcm⟩
    have hc : c = (m : ℚ) := hcm
    subst hc
    rw [ratTrunc_natCast_toNat] at htn
    rw [← htn]
    exact hcmem
  · intro hmem
    refine ⟨(n : ℚ), hmem, ratTrunc_natCast_toNat n, ?_⟩
    rcases hpos (x, (n : ℚ)) hmem with ⟨m, hm, hcm⟩
    have hnm : n = m := Nat.cast_injective hcm
    omega

/-! ### Claim theorems -/

/-- C6: for every input line that, after stripping leading/trailing whitespace,
splitting on single spaces and dropping empty tokens, has fewer than 2 fields,
`line2doc` raises a malformed-input error (modelled as `none`) rather than
returning a document; with 2 or more fields it never raises for this reason,
taking the first field as doc-id and the second as label. -/
theorem C6_malformed_line (word2id : PyStr → Option ℕ) (metadata : Bool) (line : PyStr) :
    (line2doc word2id metadata line = none ↔ (line2words line).length < 2) ∧
    (∀ (docid lang : PyStr) (rest : List PyStr), line2words line = docid :: lang :: rest →
      line2doc word2id metadata line =
        some ⟨low_line2doc word2id (joinSp rest),
              if metadata then some (docid, lang) else none⟩) := by
  constructor
  · unfold line2doc
    cases hl : line2words line with
    | nil => simp
    | cons a t =>
      cases t with
      | nil => simp
      | cons b t2 => simp
  · intro docid lang rest hl
    unfold line2doc
    rw [hl]

/-- C6 witness: a one-field line raises; a line `7 en cat` decodes with doc-id
`7` and label `en`. -/
theorem C6_witness :
    line2doc w2idCD false ['c', 'a', 't'] = none ∧
    line2doc w2idCD true ['7', ' ', 'e', 'n', ' ', 'c', 'a', 't'] =
      some ⟨[(0, 1)], some (['7'], ['e', 'n'])⟩ := by
  constructor
  · exact (C6_malformed_line w2idCD false ['c', 'a', 't']).1.mpr (by decide)
  · have h := (C6_malformed_line w2idCD true ['7', ' ', 'e', 'n', ' ', 'c', 'a', 't']).2
      ['7'] ['e', 'n'] [['c', 'a', 't']] (by decide)
    rw [h]
    decide

/-- C7 counterexample: a file consisting of one blank line.  The claim says
blank lines do not produce a yielded document and do not abort iteration; the
code applies `line2doc` to the blank line, which has zero fields, so iteration
raises (aborts, modelled `none`) instead of skipping it. -/
theorem C7_counterexample :
    pyLines ['\n'] = [['\n']] ∧ line2words ['\n'] = [] ∧
      corpusIter w2idCD false ['\n'] = none := by
  decide

/-- C7 (amended): iteration reads the file line by line in file order and
applies `line2doc` to every line (not only non-blank ones), yielding the
decoded documents in order when every line decodes; a blank line raises a
malformed-line error, which aborts the iteration. -/
theorem C7_iteration_order (word2id : PyStr → Option ℕ) (metadata : Bool) (file : PyStr)
    (h : ∀ l ∈ pyLines file, (line2doc word2id metadata l).isSome) :
    ∃ ds, corpusIter word2id metadata file = some ds ∧
      ds.length = (pyLines file).length ∧
      ∀ (j : ℕ) (l : PyStr), (pyLines file)[j]? = some l →
        ds[j]? = line2doc word2id metadata l :=
  corpusIterLines_all_some (pyLines file) h

/-- C7 witness: a concrete two-line file iterates to two documents in order. -/
theorem C7_witness :
    ∃ ds, corpusIter w2idCD false
        ['0', ' ', 'x', ' ', 'c', 'a', 't', '\n', '1', ' ', 'y', '\n'] = some ds ∧
      ds.length = (pyLines
        ['0', ' ', 'x', ' ', 'c', 'a', 't', '\n', '1', ' ', 'y', '\n']).length ∧
      ∀ (j : ℕ) (l : PyStr),
        (pyLines ['0', ' ', 'x', ' ', 'c', 'a', 't', '\n', '1', ' ', 'y', '\n'])[j]? = some l →
          ds[j]? = line2doc w2idCD false l :=
  C7_iteration_order w2idCD false
    ['0', ' ', 'x', ' ', 'c', 'a', 't', '\n', '1', ' ', 'y', '\n'] (by decide)

/-- C8: `calculate_num_docs` returns the number of lines of the file, and for a
well-formed file (every line decodes, in particular no blank trailing line)
this equals the number of documents iteration yields. -/
theorem C8_num_docs (word2id : PyStr → Option ℕ) (metadata : Bool) (file : PyStr)
    (h : ∀ l ∈ pyLines file, (line2doc word2id metadata l).isSome) :
    calculate_num_docs file = (pyLines file).length ∧
    ∃ ds, corpusIter word2id metadata file = some ds ∧
      ds.length = calculate_num_docs file := by
  have h1 : calculate_num_docs file = (pyLines file).length := sum_map_one (pyLines file)
  rcases corpusIterLines_all_some (pyLines file) h with ⟨ds, hds, hlen, -⟩
  exact ⟨h1, ds, hds, by rw [hlen, h1]⟩

/-- C8 witness: a concrete one-line file has one line and one document. -/
theorem C8_witness :
    calculate_num_docs ['0', ' ', 'x', '\n'] = (pyLines ['0', ' ', 'x', '\n']).length ∧
    ∃ ds, corpusIter w2idCD false ['0', ' ', 'x', '\n'] = some ds ∧
      ds.length = calculate_num_docs ['0', ' ', 'x', '\n'] :=
  C8_num_docs w2idCD false ['0', ' ', 'x', '\n'] (by decide)

/-- C9: the offset table of `save_corpus` on a fresh sink has exactly one entry
per document, starts at 0 when the corpus is non-empty, and is strictly
increasing (each entry is the position recorded before writing that document's
line, and every line is at least one byte long). -/
theorem C9_offsets (id2word : ℕ → PyStr) (metadata : Bool) (corpus : List MDoc) :
    (save_corpus id2word metadata corpus).offsets.length = corpus.length ∧
    (corpus ≠ [] → (save_corpus id2word metadata corpus).offsets[0]? = some 0) ∧
    List.Pairwise (fun a b => a < b) (save_corpus id2word metadata corpus).offsets := by
  have hoffs : (save_corpus id2word metadata corpus).offsets =
      offsetsFrom 0 (linesFrom id2word metadata 0 corpus) :=
    saveLoop_offsets id2word metadata corpus 0 0 0
  refine ⟨?_, ?_, ?_⟩
  · rw [hoffs, offsetsFrom_length, linesFrom_length]
  · intro hne
    cases corpus with
    | nil => cases hne rfl
    | cons d rest =>
      rw [hoffs, linesFrom, offsetsFrom, List.getElem?_cons_zero]
  · rw [hoffs]
    exact offsetsFrom_pairwise _ (linesFrom_ne_nil corpus 0) 0

/-- C9 witness: a concrete two-document corpus has two offsets, starting at 0,
strictly increasing. -/
theorem C9_witness :
    (save_corpus id2wCD false [⟨[(0, (2 : ℚ))], [], []⟩, ⟨[], [], []⟩]).offsets.length =
      ([⟨[(0, (2 : ℚ))], [], []⟩, ⟨[], [], []⟩] : List MDoc).length ∧
    (save_corpus id2wCD false [⟨[(0, (2 : ℚ))], [], []⟩, ⟨[], [], []⟩]).offsets[0]? = some 0 ∧
    List.Pairwise (fun a b => a < b)
      (save_corpus id2wCD false [⟨[(0, (2 : ℚ))], [], []⟩, ⟨[], [], []⟩]).offsets := by
  have h := C9_offsets id2wCD false [⟨[(0, (2 : ℚ))], [], []⟩, ⟨[], [], []⟩]
  exact ⟨h.1, h.2.1 (List.cons_ne_nil _ _), h.2.2⟩

/-- C10: a pair whose count truncates toward zero to an integer at most 0
contributes zero token occurrences to the written line and causes no error:
the encoded line is the same as if the pair were absent. -/
theorem C10_nonpositive_count (id2word : ℕ → PyStr) (metadata : Bool) (i : ℕ)
    (docid lang : PyStr) (b1 b2 : List (ℕ × ℚ)) (x : ℕ) (c : ℚ)
    (h : ratTrunc c ≤ 0) :
    List.replicate (ratTrunc c).toNat (id2word x) = [] ∧
    docWords id2word (b1 ++ (x, c) :: b2) = docWords id2word (b1 ++ b2) ∧
    encodeLine id2word metadata i ⟨b1 ++ (x, c) :: b2, docid, lang⟩ =
      encodeLine id2word metadata i ⟨b1 ++ b2, docid, lang⟩ := by
  have h0 : (ratTrunc c).toNat = 0 := Int.toNat_of_nonpos h
  have h1 : List.replicate (ratTrunc c).toNat (id2word x) = [] := by
    rw [h0]
    rfl
  have h2 : docWords id2word (b1 ++ (x, c) :: b2) = docWords id2word (b1 ++ b2) := by
    rw [docWords_append, docWords_append]
    unfold docWords
    rw [List.flatMap_cons]
    have h1' : List.replicate (ratTrunc (x, c).2).toNat (id2word (x, c).1) = [] := h1
    rw [h1', List.nil_append]
  refine ⟨h1, h2, ?_⟩
  have hcongr := congrArg
    (fun ws => (if metadata then docid else natDecimal i) ++
      ' ' :: (if metadata then lang else uLabel) ++ ' ' :: joinSp ws ++ ['\n']) h2
  exact hcongr

/-- C10 witness: the pair (5, 0) contributes nothing; the encoded line equals
the line of the document without it. -/
theorem C10_witness :
    List.replicate (ratTrunc (0 : ℚ)).toNat (id2wCD 5) = [] ∧
    docWords id2wCD ([] ++ (5, (0 : ℚ)) :: [(1, (2 : ℚ))]) =
      docWords id2wCD ([] ++ [(1, (2 : ℚ))]) ∧
    encodeLine id2wCD false 0 ⟨[] ++ (5, (0 : ℚ)) :: [(1, (2 : ℚ))], ['z'], ['q']⟩ =
      encodeLine id2wCD false 0 ⟨[] ++ [(1, (2 : ℚ))], ['z'], ['q']⟩ := by
  have hr : ratTrunc (0 : ℚ) ≤ 0 := by
    unfold ratTrunc
    norm_num
  exact C10_nonpositive_count id2wCD false 0 ['z'] ['q'] [] [(1, (2 : ℚ))] 5 0 hr

/-- C1 counterexample: with metadata_mode on, `save_corpus` writes the doc-id
carried in the input metadata (`x`) at the start of document 0's line, not the
decimal rendering of the position 0 — the claim's "never a doc-id carried in
the input metadata" is false. -/
theorem C1_counterexample :
    (line2words (readline (save_corpus (fun _ => ['a']) true
        [⟨[], ['x'], ['e', 'n']⟩]).file))[0]? = some ['x'] ∧
      (['x'] : PyStr) ≠ natDecimal 0 := by
  decide

/-- C1 (amended): when metadata_mode is false, the doc-id field at the start of
document j's line is the decimal rendering of j and the label is the literal
`__unknown__`; when metadata_mode is true, the doc-id and label written are the
ones carried in the input metadata. -/
theorem C1_amended_fields (id2word : ℕ → PyStr) (metadata : Bool) (corpus : List MDoc)
    (hclean : ∀ d ∈ corpus, CleanDoc id2word metadata d) (j : ℕ) (d : MDoc)
    (hj : corpus[j]? = some d) :
    ∃ line, (pyLines (save_corpus id2word metadata corpus).file)[j]? = some line ∧
      (line2words line)[0]? = some (if metadata then d.docid else natDecimal j) ∧
      (line2words line)[1]? = some (if metadata then d.lang else uLabel) := by
  have hfile : (save_corpus id2word metadata corpus).file =
      (linesFrom id2word metadata 0 corpus).flatten :=
    saveLoop_file id2word metadata corpus 0 0 0
  obtain ⟨hd, hl, hws⟩ := cleanDoc_fields (hclean d (mem_of_getElem_some hj)) (0 + j)
  refine ⟨encodeLine id2word metadata (0 + j) d, ?_, ?_, ?_⟩
  · rw [hfile, pyLines_linesFrom corpus 0 hclean, linesFrom_getElem? corpus 0 j, hj,
      Option.map_some']
  · rw [line2words_encodeLine hd hl hws, List.getElem?_cons_zero, Nat.zero_add]
  · rw [line2words_encodeLine hd hl hws, List.getElem?_cons_succ, List.getElem?_cons_zero]

/-- C1 witness: without metadata, document 0's line carries doc-id `0` and
label `__unknown__`, ignoring the docid field of the input element. -/
theorem C1_witness :
    ∃ line, (pyLines (save_corpus id2wCD false
        [⟨[(0, (2 : ℚ))], ['z'], ['q']⟩]).file)[0]? = some line ∧
      (line2words line)[0]? = some (natDecimal 0) ∧
      (line2words line)[1]? = some uLabel :=
  C1_amended_fields id2wCD false [⟨[(0, (2 : ℚ))], ['z'], ['q']⟩] (by decide) 0
    ⟨[(0, (2 : ℚ))], ['z'], ['q']⟩ rfl

/-- C4 counterexample: the count 5999999/2000000 = 2.9999995 is within 1e-6 of
the integer 3, so by the claim it is "integral within a tolerance of 1e-6" and
no truncation event should be counted; the code counts one event because it
measures the distance to the truncated value 2, not to the nearest integer. -/
theorem C4_counterexample :
    (save_corpus (fun _ => ['a']) false
        [⟨[(0, (5999999 : ℚ)/2000000)], [], []⟩]).truncated = 1 ∧
      |(5999999 : ℚ)/2000000 - 3| ≤ 1/1000000 := by
  have htr0 : ratTrunc ((5999999 : ℚ)/2000000) = 2 := by
    unfold ratTrunc
    rw [if_pos (by norm_num)]
    norm_num
  have htr : truncEvent ((5999999 : ℚ)/2000000) = true := by
    unfold truncEvent
    rw [decide_eq_true_eq, htr0, abs_sub_comm,
      abs_of_nonneg (by push_cast; norm_num : (0 : ℚ) ≤ 5999999/2000000 - ((2 : ℤ) : ℚ))]
    push_cast
    norm_num
  constructor
  · have h := saveLoop_trunc (fun _ => ['a']) false
      [⟨[(0, (5999999 : ℚ)/2000000)], [], []⟩] 0 0 0
    have hshow : (save_corpus (fun _ => ['a']) false
        [⟨[(0, (5999999 : ℚ)/2000000)], [], []⟩]).truncated =
        0 + (([⟨[(0, (5999999 : ℚ)/2000000)], [], []⟩] : List MDoc).map
          (fun d => docTrunc d.bow)).sum := h
    rw [hshow]
    simp [docTrunc, List.countP_cons, htr]
  · rw [abs_le]
    constructor <;> norm_num

/-- C4 (amended): during encode a truncation event is counted for a pair iff
its count differs from its truncation toward zero by more than 1e-6 (the code
measures the distance to the truncated value, not integrality); writing always
proceeds with the truncated count; and after the whole encode exactly one
aggregate notice carrying the total event count is issued iff any event
occurred — never one per document or per occurrence. -/
theorem C4_amended_truncation (id2word : ℕ → PyStr) (metadata : Bool) (corpus : List MDoc) :
    ((save_corpus id2word metadata corpus).truncated =
      (corpus.flatMap (fun d => d.bow)).countP (fun p => truncEvent p.2)) ∧
    (∀ v : ℚ, truncEvent v = true ↔ (1 : ℚ)/1000000 < |((ratTrunc v : ℤ) : ℚ) - v|) ∧
    (∀ (b1 b2 : List (ℕ × ℚ)) (x : ℕ) (c : ℚ),
      docWords id2word (b1 ++ (x, c) :: b2) =
        docWords id2word b1 ++
          (List.replicate (ratTrunc c).toNat (id2word x) ++ docWords id2word b2)) ∧
    ((save_corpus id2word metadata corpus).warnings.length ≤ 1) ∧
    ((save_corpus id2word metadata corpus).warnings ≠ [] ↔
      0 < (save_corpus id2word metadata corpus).truncated) ∧
    (∀ w ∈ (save_corpus id2word metadata corpus).warnings,
      w = (save_corpus id2word metadata corpus).truncated) := by
  have htr : (save_corpus id2word metadata corpus).truncated =
      0 + (corpus.map (fun d => docTrunc d.bow)).sum :=
    saveLoop_trunc id2word metadata corpus 0 0 0
  have hw : (save_corpus id2word metadata corpus).warnings =
      if (save_corpus id2word metadata corpus).truncated = 0 then []
      else [(save_corpus id2word metadata corpus).truncated] := rfl
  refine ⟨?_, ?_, ?_, ?_, ?_, ?_⟩
  · rw [htr, Nat.zero_add, trunc_total]
  · intro v
    simp [truncEvent]
  · intro b1 b2 x c
    rw [docWords_append]
    unfold docWords
    rw [List.flatMap_cons]
  · rw [hw]
    split <;> simp
  · rw [hw]
    split
    · rename_i heq
      simp [heq]
    · rename_i hne
      constructor
      · intro _
        omega
      · intro _
        simp
  · intro w hwmem
    rw [hw] at hwmem
    split at hwmem
    · cases hwmem
    · rcases List.mem_cons.1 hwmem with rfl | h2
      · rfl
      · cases h2

/-- C4 witness: a corpus with one genuinely fractional count yields a positive
truncation total and a non-empty aggregate warning list. -/
theorem C4_witness :
    0 < (save_corpus (fun _ => ['b']) false
        [⟨[(0, (7 : ℚ)/2)], [], []⟩]).truncated ∧
      (save_corpus (fun _ => ['b']) false
        [⟨[(0, (7 : ℚ)/2)], [], []⟩]).warnings ≠ [] := by
  have h := C4_amended_truncation (fun _ => ['b']) false [⟨[(0, (7 : ℚ)/2)], [], []⟩]
  have htr0 : ratTrunc ((7 : ℚ)/2) = 3 := by
    unfold ratTrunc
    rw [if_pos (by norm_num)]
    norm_num
  have htre : truncEvent ((7 : ℚ)/2) = true := by
    rw [h.2.1, htr0, abs_sub_comm,
      abs_of_nonneg (by push_cast; norm_num : (0 : ℚ) ≤ 7/2 - ((3 : ℤ) : ℚ))]
    push_cast
    norm_num
  have h1 : (save_corpus (fun _ => ['b']) false
      [⟨[(0, (7 : ℚ)/2)], [], []⟩]).truncated = 1 := by
    rw [h.1]
    simp [List.countP_cons, htre]
  constructor
  · omega
  · exact h.2.2.2.2.1.mpr (by omega)

/-- C2 counterexample: all counts are integers (the count is 0) and the id is
in the mapping, yet the decoded document is empty, so it is not equal as a set
of (id, count) pairs to the original [(0, 0)]. -/
theorem C2_counterexample :
    corpusIter w2idCD false
        (save_corpus id2wCD false [⟨[(0, (0 : ℚ))], [], []⟩]).file = some [⟨[], none⟩] ∧
      ((0 : ℕ), (0 : ℚ)) ∈ ([(0, (0 : ℚ))] : List (ℕ × ℚ)) := by
  constructor
  · decide
  · exact List.mem_singleton.2 rfl

/-- C2 (amended): for every corpus whose counts are positive integers (zero or
negative integer counts falsify the claim as stated), whose ids are unique
within each document and present in a mapping whose tokens are non-empty,
whitespace-free and injective on each document's ids, encoding with
`save_corpus` and decoding the written file by iteration yields, at every
position, a bag-of-words equal as a set of (id, count) pairs to the original
document at that position. -/
theorem C2_roundtrip (word2id : PyStr → Option ℕ) (id2word : ℕ → PyStr) (corpus : List MDoc)
    (hpos : ∀ d ∈ corpus, ∀ p ∈ d.bow, ∃ n : ℕ, 0 < n ∧ p.2 = (n : ℚ))
    (hnodup : ∀ d ∈ corpus, (d.bow.map Prod.fst).Nodup)
    (htok : ∀ d ∈ corpus, ∀ p ∈ d.bow, Clean (id2word p.1))
    (hinj : ∀ d ∈ corpus, ∀ p ∈ d.bow, ∀ q ∈ d.bow, id2word p.1 = id2word q.1 → p.1 = q.1)
    (hinv : ∀ d ∈ corpus, ∀ p ∈ d.bow, word2id (id2word p.1) = some p.1) :
    ∃ ds, corpusIter word2id false (save_corpus id2word false corpus).file = some ds ∧
      ds.length = corpus.length ∧
      ∀ (j : ℕ) (d : MDoc) (dec : Decoded), corpus[j]? = some d → ds[j]? = some dec →
        ∀ (x n : ℕ), (x, n) ∈ dec.doc ↔ (x, (n : ℚ)) ∈ d.bow := by
  have hclean : ∀ d ∈ corpus, CleanDoc id2word false d :=
    fun d hd => ⟨fun hh => absurd hh Bool.false_ne_true, htok d hd⟩
  refine ⟨corpus.map (decodedOf word2id id2word false), corpusIter_save hclean,
    by rw [List.length_map], ?_⟩
  intro j d dec hj hdec
  rw [List.getElem?_map, hj, Option.map_some', Option.some.injEq] at hdec
  subst hdec
  have hd : d ∈ corpus := mem_of_getElem_some hj
  intro x n
  exact decoded_doc_mem_iff (hpos d hd) (hnodup d hd) (htok d hd) (hinj d hd) (hinv d hd) x n

/-- C2 witness: concrete round trip of the document [(0, 2), (1, 1)] under the
cat/dog mapping. -/
theorem C2_witness :
    ∃ ds, corpusIter w2idCD false
        (save_corpus id2wCD false [⟨[(0, (2 : ℚ)), (1, (1 : ℚ))], [], []⟩]).file = some ds ∧
      ds.length = ([⟨[(0, (2 : ℚ)), (1, (1 : ℚ))], [], []⟩] : List MDoc).length ∧
      ∀ (j : ℕ) (d : MDoc) (dec : Decoded),
        ([⟨[(0, (2 : ℚ)), (1, (1 : ℚ))], [], []⟩] : List MDoc)[j]? = some d →
          ds[j]? = some dec →
          ∀ (x n : ℕ), (x, n) ∈ dec.doc ↔ (x, (n : ℚ)) ∈ d.bow := by
  apply C2_roundtrip
  · intro d hd p hp
    rcases List.mem_singleton.1 hd with rfl
    rcases List.mem_cons.1 hp with rfl | hp2
    · exact ⟨2, by norm_num, by norm_num⟩
    rcases List.mem_cons.1 hp2 with rfl | hp3
    · exact ⟨1, by norm_num, by norm_num⟩
    · cases hp3
  · decide
  · decide
  · decide
  · decide

/-- C3 counterexample: the claim has no integrality restriction; for the
corpus [(0, 0)] the offset table is [0], but decoding the written file at
offset 0 yields the empty bag-of-words, not the original document 0. -/
theorem C3_counterexample :
    (save_corpus id2wCD false [⟨[(0, (0 : ℚ))], [], []⟩]).offsets = [0] ∧
    docbyoffset w2idCD false
        (save_corpus id2wCD false [⟨[(0, (0 : ℚ))], [], []⟩]).file 0 = some ⟨[], none⟩ ∧
      ((0 : ℕ), (0 : ℚ)) ∈ ([(0, (0 : ℚ))] : List (ℕ × ℚ)) := by
  refine ⟨by decide, by decide, List.mem_singleton.2 rfl⟩

/-- C3 (amended): under the round-trip preconditions (positive integer counts,
unique ids, injective complete whitespace-free mapping, and clean metadata
fields when metadata mode is on — the claim as stated already fails for a
zero or fractional count), decoding the written file at the j-th returned
offset yields the same bag-of-words as document j of the encoded sequence,
and the same metadata when metadata mode is enabled. -/
theorem C3_offset_roundtrip (word2id : PyStr → Option ℕ) (id2word : ℕ → PyStr)
    (metadata : Bool) (corpus : List MDoc)
    (hpos : ∀ d ∈ corpus, ∀ p ∈ d.bow, ∃ n : ℕ, 0 < n ∧ p.2 = (n : ℚ))
    (hnodup : ∀ d ∈ corpus, (d.bow.map Prod.fst).Nodup)
    (htok : ∀ d ∈ corpus, ∀ p ∈ d.bow, Clean (id2word p.1))
    (hinj : ∀ d ∈ corpus, ∀ p ∈ d.bow, ∀ q ∈ d.bow, id2word p.1 = id2word q.1 → p.1 = q.1)
    (hinv : ∀ d ∈ corpus, ∀ p ∈ d.bow, word2id (id2word p.1) = some p.1)
    (hmeta : metadata = true → ∀ d ∈ corpus, Clean d.docid ∧ Clean d.lang)
    (j : ℕ) (d : MDoc) (hjd : corpus[j]? = some d) (off : ℕ)
    (hoff : (save_corpus id2word metadata corpus).offsets[j]? = some off) :
    ∃ dec, docbyoffset word2id metadata (save_corpus id2word metadata corpus).file off =
        some dec ∧
      (∀ (x n : ℕ), (x, n) ∈ dec.doc ↔ (x, (n : ℚ)) ∈ d.bow) ∧
      (metadata = true → dec.meta = some (d.docid, d.lang)) := by
  have hclean : ∀ a ∈ corpus, CleanDoc id2word metadata a :=
    fun a ha => ⟨fun hh => hmeta hh a ha, htok a ha⟩
  rcases List.getElem?_eq_some.1 hjd with ⟨hj, hdj⟩
  have hget : corpus.get ⟨j, hj⟩ = d := by
    rw [List.get_eq_getElem, hdj]
  have hd : d ∈ corpus := mem_of_getElem_some hjd
  refine ⟨decodedOf word2id id2word metadata d, ?_, ?_, ?_⟩
  · have h := @docbyoffset_save word2id id2word metadata corpus hclean j hj off hoff
    rw [hget] at h
    exact h
  · intro x n
    exact decoded_doc_mem_iff (hpos d hd) (hnodup d hd) (htok d hd) (hinj d hd)
      (hinv d hd) x n
  · intro hm
    simp [decodedOf, hm]

/-- C3 witness: with metadata mode on, decoding at the recorded offset 0
recovers both the bag-of-words and the metadata of document 0. -/
theorem C3_witness :
    ∃ dec, docbyoffset w2idCD true
        (save_corpus id2wCD true [⟨[(0, (1 : ℚ))], ['7'], ['e', 'n']⟩]).file 0 = some dec ∧
      (∀ (x n : ℕ), (x, n) ∈ dec.doc ↔
        (x, (n : ℚ)) ∈ (⟨[(0, (1 : ℚ))], ['7'], ['e', 'n']⟩ : MDoc).bow) ∧
      (true = true → dec.meta = some ((⟨[(0, (1 : ℚ))], ['7'], ['e', 'n']⟩ : MDoc).docid,
        (⟨[(0, (1 : ℚ))], ['7'], ['e', 'n']⟩ : MDoc).lang)) := by
  refine C3_offset_roundtrip w2idCD id2wCD true [⟨[(0, (1 : ℚ))], ['7'], ['e', 'n']⟩]
    ?_ ?_ ?_ ?_ ?_ ?_ 0 ⟨[(0, (1 : ℚ))], ['7'], ['e', 'n']⟩ rfl 0 ?_
  · intro d hd p hp
    rcases List.mem_singleton.1 hd with rfl
    rcases List.mem_singleton.1 hp with rfl
    exact ⟨1, by norm_num, by norm_num⟩
  · decide
  · decide
  · decide
  · decide
  · intro _
    decide
  · decide

/-- C5: for a document containing (id = X, count = n) with n a positive
integer (ids unique in the document, mapping injective with clean tokens and
containing X), the encoded line contains exactly n consecutive space-separated
occurrences of id2word X — the token list of the line is
before ++ n-fold-repetition ++ after with the token absent from before and
after — and decoding that line recovers the pair (X, n). -/
theorem C5_token_repetition (word2id : PyStr → Option ℕ) (id2word : ℕ → PyStr)
    (corpus : List MDoc) (j : ℕ) (d : MDoc) (hj : corpus[j]? = some d)
    (X n : ℕ) (hmem : (X, (n : ℚ)) ∈ d.bow) (hn : 0 < n)
    (hnodup : (d.bow.map Prod.fst).Nodup)
    (htokens : ∀ a ∈ corpus, ∀ p ∈ a.bow, Clean (id2word p.1))
    (hinj : ∀ p ∈ d.bow, ∀ q ∈ d.bow, id2word p.1 = id2word q.1 → p.1 = q.1)
    (hinv : ∀ p ∈ d.bow, word2id (id2word p.1) = some p.1) :
    ∃ before after, docWords id2word d.bow =
        before ++ (List.replicate n (id2word X) ++ after) ∧
      id2word X ∉ before ∧ id2word X ∉ after ∧
      ∃ line dec, (pyLines (save_corpus id2word false corpus).file)[j]? = some line ∧
        line2words line = natDecimal j :: uLabel :: docWords id2word d.bow ∧
        line2doc word2id false line = some dec ∧ (X, n) ∈ dec.doc := by
  have hd : d ∈ corpus := mem_of_getElem_some hj
  obtain ⟨pre, post, hsplit⟩ := List.append_of_mem hmem
  have hrepl : List.replicate (ratTrunc ((X, ((n : ℕ) : ℚ)) : ℕ × ℚ).2).toNat
      (id2word ((X, ((n : ℕ) : ℚ)) : ℕ × ℚ).1) = List.replicate n (id2word X) := by
    rw [show ((X, ((n : ℕ) : ℚ)) : ℕ × ℚ).2 = ((n : ℕ) : ℚ) from rfl,
      show ((X, ((n : ℕ) : ℚ)) : ℕ × ℚ).1 = X from rfl, ratTrunc_natCast_toNat]
  have hdw : docWords id2word d.bow =
      docWords id2word pre ++ (List.replicate n (id2word X) ++ docWords id2word post) := by
    rw [hsplit, docWords_append]
    unfold docWords
    simp only [List.flatMap_cons]
    rw [hrepl]
  have hfst : (List.map Prod.fst pre ++ X :: List.map Prod.fst post).Nodup := by
    have h2 := hnodup
    rw [hsplit, List.map_append, List.map_cons] at h2
    exact h2
  have hXnot : X ∉ List.map Prod.fst pre ++ List.map Prod.fst post :=
    (List.nodup_cons.1 (List.nodup_middle.1 hfst)).1
  have hnotbefore : id2word X ∉ docWords id2word pre := by
    intro hc
    rcases mem_docWords.1 hc with ⟨q, hq, -, heqw⟩
    have hqin : q ∈ d.bow := by
      rw [hsplit]
      exact List.mem_append_left _ hq
    have hq1 : q.1 = X := hinj q hqin (X, ((n : ℕ) : ℚ)) hmem heqw.symm
    apply hXnot
    apply List.mem_append_left
    rw [← hq1]
    exact List.mem_map_of_mem Prod.fst hq
  have hnotafter : id2word X ∉ docWords id2word post := by
    intro hc
    rcases mem_docWords.1 hc with ⟨q, hq, -, heqw⟩
    have hqin : q ∈ d.bow := by
      rw [hsplit]
      exact List.mem_append_right _ (List.mem_cons_of_mem _ hq)
    have hq1 : q.1 = X := hinj q hqin (X, ((n : ℕ) : ℚ)) hmem heqw.symm
    apply hXnot
    apply List.mem_append_right
    rw [← hq1]
    exact List.mem_map_of_mem Prod.fst hq
  refine ⟨docWords id2word pre, docWords id2word post, hdw, hnotbefore, hnotafter, ?_⟩
  have hclean : ∀ a ∈ corpus, CleanDoc id2word false a :=
    fun a ha => ⟨fun hh => absurd hh Bool.false_ne_true, htokens a ha⟩
  have hfile : (save_corpus id2word false corpus).file =
      (linesFrom id2word false 0 corpus).flatten :=
    saveLoop_file id2word false corpus 0 0 0
  obtain ⟨hdq, hlq, hwsq⟩ := cleanDoc_fields (hclean d hd) (0 + j)
  refine ⟨encodeLine id2word false (0 + j) d, decodedOf word2id id2word false d,
    ?_, ?_, ?_, ?_⟩
  · rw [hfile, pyLines_linesFrom corpus 0 hclean, linesFrom_getElem? corpus 0 j, hj,
      Option.map_some']
  · rw [line2words_encodeLine hdq hlq hwsq, if_neg Bool.false_ne_true,
      if_neg Bool.false_ne_true, Nat.zero_add]
  · exact line2doc_encodeLine (hclean d hd)
  · show (X, n) ∈ (decodedOf word2id id2word false d).doc
    apply (mem_low_line2doc_docWords hnodup (htokens d hd) hinj hinv X n).2
    exact ⟨((n : ℕ) : ℚ), hmem, ratTrunc_natCast_toNat n, by omega⟩

/-- C5 witness: the document [(0, 3), (1, 1)] under the cat/dog mapping writes
exactly 3 consecutive occurrences of `cat` and decodes back to count 3. -/
theorem C5_witness :
    ∃ before after, docWords id2wCD [(0, (3 : ℚ)), (1, (1 : ℚ))] =
        before ++ (List.replicate 3 (id2wCD 0) ++ after) ∧
      id2wCD 0 ∉ before ∧ id2wCD 0 ∉ after ∧
      ∃ line dec, (pyLines (save_corpus id2wCD false
          [⟨[(0, (3 : ℚ)), (1, (1 : ℚ))], [], []⟩]).file)[0]? = some line ∧
        line2words line =
          natDecimal 0 :: uLabel :: docWords id2wCD [(0, (3 : ℚ)), (1, (1 : ℚ))] ∧
        line2doc w2idCD false line = some dec ∧ ((0 : ℕ), (3 : ℕ)) ∈ dec.doc := by
  refine C5_token_repetition w2idCD id2wCD [⟨[(0, (3 : ℚ)), (1, (1 : ℚ))], [], []⟩] 0
    ⟨[(0, (3 : ℚ)), (1, (1 : ℚ))], [], []⟩ rfl 0 3 ?_ (by norm_num) (by decide) (by decide)
    (by decide) (by decide)
  rw [show ((3 : ℕ) : ℚ) = (3 : ℚ) from by norm_num]
  exact List.mem_cons_self _ _
